import Mathlib

/-!
Shallow embedding of the finite-field element type implemented in
src/src/main.rs. Rust i64 values are modelled as Int. The Rust rem
operator on i64 is truncated remainder, modelled by Int.tmod, and i64
division is truncated division, modelled by Int.tdiv. Every i64
addition, subtraction and multiplication that can overflow is reduced
to its twos-complement value through wrap64, the release-mode Rust
semantics of i64 arithmetic.
-/

/-- FieldElement mirrors the Rust struct: a residue `num` and a modulus
`prime`, both i64, modelled as Int. -/
structure FieldElement where
  num : Int
  prime : Int
deriving DecidableEq

/-- FieldElementError mirrors the Rust error enum with its two variants. -/
inductive FieldElementError where
  | differentFields
  | invalidElement
deriving DecidableEq

/-- Result type of the fallible operations, mirroring
`Result<FieldElement, FieldElementError>`. -/
abbrev FieldResult := Except FieldElementError FieldElement

namespace FieldElement

/-- Embeds `FieldElement::new`: rejects `num` outside `[0, prime)` with
`InvalidElement`, keeping the Rust condition `num >= prime || num < 0`.
The comparisons cannot overflow, so no wrapping is involved. -/
def new (num prime : Int) : FieldResult :=
  if num ≥ prime ∨ num < 0 then .error .invalidElement
  else .ok ⟨num, prime⟩

/-- Reduction of an ideal integer to the i64 twos-complement value that a
wrapping Rust arithmetic operation produces. -/
def wrap64 (x : Int) : Int := (x + 2 ^ 63).emod (2 ^ 64) - 2 ^ 63

/-- Loop body of `FieldElement::pow`: square-and-multiply, with the Rust
operators `%` and `/=` on i64 rendered as truncated remainder and
truncated division, and the two i64 products `result * base` and
`base * base` wrapped to twos-complement. -/
def powLoop (prime : Int) (exp base result : Int) : Int :=
  if 0 < exp then
    powLoop prime (exp.tdiv 2) ((wrap64 (base * base)).tmod prime)
      (if exp.tmod 2 = 1 then (wrap64 (result * base)).tmod prime else result)
  else result
termination_by exp.toNat
decreasing_by
  rw [Int.tdiv_eq_ediv (by omega) (by omega)]
  omega

/-- Fuel-indexed copy of `powLoop` with the identical body, recursing
structurally on the fuel so that concrete runs reduce inside the kernel;
`powLoop_eq_fuel` proves it agrees with `powLoop` whenever the fuel bounds
the bit length of the exponent. -/
def powLoopF (prime : Int) : Nat → Int → Int → Int → Int
  | 0, _, _, result => result
  | n + 1, exp, base, result =>
    if 0 < exp then
      powLoopF prime n (exp.tdiv 2) ((wrap64 (base * base)).tmod prime)
        (if exp.tmod 2 = 1 then (wrap64 (result * base)).tmod prime else result)
    else result

/-- Embeds `FieldElement::pow`: the accumulator starts at 1 and the prime
is carried over unchanged. -/
def pow (a : FieldElement) (exponent : Int) : FieldElement :=
  ⟨powLoop a.prime exponent a.num 1, a.prime⟩

/-- Embeds the `Add` impl: modulus check, then `(a.num + b.num) % prime`
with the i64 sum wrapped to twos-complement. -/
def add (a b : FieldElement) : FieldResult :=
  if a.prime ≠ b.prime then .error .differentFields
  else .ok ⟨(wrap64 (a.num + b.num)).tmod a.prime, a.prime⟩

/-- Embeds the `Sub` impl: the raw truncated remainder is normalized by
adding `prime` back and reducing again; both the i64 difference and the
i64 renormalization sum `num + prime` wrap to twos-complement. -/
def sub (a b : FieldElement) : FieldResult :=
  if a.prime ≠ b.prime then .error .differentFields
  else .ok ⟨(wrap64 ((wrap64 (a.num - b.num)).tmod a.prime + a.prime)).tmod a.prime,
    a.prime⟩

/-- Embeds the `Mul` impl with the intermediate i64 product wrapped to
twos-complement. -/
def mul (a b : FieldElement) : FieldResult :=
  if a.prime ≠ b.prime then .error .differentFields
  else .ok ⟨(wrap64 (a.num * b.num)).tmod a.prime, a.prime⟩

/-- Embeds the `Div` impl: Fermat inverse `other.pow(self.prime - 2)`,
then the i64 product with the dividend, wrapped, reduced modulo the
prime. -/
def div (a b : FieldElement) : FieldResult :=
  if a.prime ≠ b.prime then .error .differentFields
  else .ok ⟨(wrap64 (a.num * (b.pow (a.prime - 2)).num)).tmod a.prime, a.prime⟩

/-- The `Mul` impl once more under its own name, the form used by the
overflow analysis: the intermediate product wrapped to i64, the
release-mode Rust semantics of `self.num * other.num`. -/
def mulWrap (a b : FieldElement) : FieldResult :=
  if a.prime ≠ b.prime then .error .differentFields
  else .ok ⟨(wrap64 (a.num * b.num)).tmod a.prime, a.prime⟩

/-- Valid elements are those satisfying the constructor invariant
`0 ≤ num < prime`. -/
def Valid (a : FieldElement) : Prop := 0 ≤ a.num ∧ a.num < a.prime

instance (a : FieldElement) : Decidable a.Valid :=
  inferInstanceAs (Decidable (0 ≤ a.num ∧ a.num < a.prime))

end FieldElement

/-- Negating the dividend negates the truncated remainder. -/
theorem tmod_neg_dividend (x p : Int) : (-x).tmod p = -(x.tmod p) := by
  rw [Int.tmod_def, Int.tmod_def, Int.neg_tdiv]
  ring

/-- Truncated remainder is congruent to the dividend. -/
theorem tmod_modEq (x p : Int) : x.tmod p ≡ x [ZMOD p] :=
  Int.modEq_iff_dvd.mpr ⟨x.tdiv p, by rw [Int.tmod_def]; ring⟩

/-- Truncated remainder by a positive modulus is greater than the negated
modulus. -/
theorem neg_lt_tmod (x : Int) {p : Int} (hp : 0 < p) : -p < x.tmod p := by
  rcases le_or_lt 0 x with hx | hx
  · have := Int.tmod_nonneg p hx
    omega
  · have h2 : x.tmod p = -((-x).tmod p) := by
      rw [tmod_neg_dividend]
      omega
    have h1 : (-x).tmod p < p := Int.tmod_lt_of_pos _ hp
    omega

/-- Adding the modulus back to a truncated remainder and reducing again
yields the Euclidean remainder, the normalization used by `Sub`. -/
theorem norm_tmod (x : Int) {p : Int} (hp : 0 < p) :
    (x.tmod p + p).tmod p = x.emod p := by
  have hlb : -p < x.tmod p := neg_lt_tmod x hp
  rw [Int.tmod_eq_emod (by omega) (by omega)]
  exact (Int.add_modEq_right.trans (tmod_modEq x p)).eq

/-- Wrapping is the identity on values already inside the i64 range. -/
theorem wrap64_eq_self {x : Int} (h1 : -(2 ^ 63) ≤ x) (h2 : x < 2 ^ 63) :
    FieldElement.wrap64 x = x := by
  have hc : (2 : Int) ^ 63 = 9223372036854775808 := by norm_num
  have hc2 : (2 : Int) ^ 64 = 18446744073709551616 := by norm_num
  rw [hc] at h1 h2
  show (x + 2 ^ 63) % 2 ^ 64 - 2 ^ 63 = x
  rw [hc, hc2, Int.emod_eq_of_lt (by omega) (by omega)]
  omega

/-- Wrapping fixes zero. -/
theorem wrap64_zero : FieldElement.wrap64 0 = 0 :=
  wrap64_eq_self (by norm_num) (by norm_num)

/-- A product of two residues below a modulus of at most 3037000500 stays
below 2 to the 63, hence never overflows i64. -/
theorem prod_lt_i64 {p x y : Int} (hbd : p ≤ 3037000500) (hx0 : 0 ≤ x) (hx : x < p)
    (hy0 : 0 ≤ y) (hy : y < p) : x * y < 2 ^ 63 := by
  have hp1 : (0 : Int) ≤ p - 1 := by omega
  have h1 : x * y ≤ (p - 1) * (p - 1) := mul_le_mul (by omega) (by omega) hy0 hp1
  have h2 : (p - 1) * (p - 1) ≤ 3037000499 * 3037000499 :=
    mul_le_mul (by omega) (by omega) hp1 (by norm_num)
  have h3 : (3037000499 : Int) * 3037000499 < 2 ^ 63 := by norm_num
  omega

/-- The loop is skipped entirely on a non-positive exponent. -/
theorem powLoop_nonpos (p e b r : Int) (he : e ≤ 0) :
    FieldElement.powLoop p e b r = r := by
  unfold FieldElement.powLoop
  rw [if_neg (by omega)]

/-- The fuel-indexed copy agrees with the loop whenever the fuel bounds
the bit length of the exponent. -/
theorem powLoop_eq_fuel (p : Int) :
    ∀ (n : Nat) (e b r : Int), e < 2 ^ n →
      FieldElement.powLoop p e b r = FieldElement.powLoopF p n e b r := by
  intro n
  induction n with
  | zero =>
    intro e b r hn
    norm_num at hn
    rw [powLoop_nonpos p e b r (by omega)]
    rfl
  | succ n ih =>
    intro e b r hn
    rcases le_or_lt e 0 with he | he
    · rw [powLoop_nonpos p e b r he]
      simp only [FieldElement.powLoopF]
      rw [if_neg (by omega)]
    · unfold FieldElement.powLoop
      simp only [FieldElement.powLoopF]
      rw [if_pos he, if_pos he]
      apply ih
      have htd : e.tdiv 2 = e / 2 := Int.tdiv_eq_ediv (by omega) (by omega)
      have h2 : (2 : Int) ^ (n + 1) = 2 * 2 ^ n := by ring
      rw [h2] at hn
      rw [htd]
      omega

/-- On a positive exponent with a modulus small enough that no product in
the loop overflows i64, the loop computes the Euclidean remainder of the
accumulator times the base raised to the exponent. -/
theorem powLoop_eq {p : Int} (hp : 0 < p) (hbd : p ≤ 3037000500) :
    ∀ (n : Nat) (e b r : Int), e.toNat ≤ n → 0 < e → 0 ≤ b → b < p → 0 ≤ r → r < p →
      FieldElement.powLoop p e b r = (r * b ^ e.toNat).emod p := by
  intro n
  induction n with
  | zero =>
    intro e b r hn he hb hbp hr hrp
    omega
  | succ n ih =>
    intro e b r hn he hb hbp hr hrp
    have htd : e.tdiv 2 = e / 2 := Int.tdiv_eq_ediv (by omega) (by omega)
    have htm : e.tmod 2 = e % 2 := Int.tmod_eq_emod (by omega) (by omega)
    have hwb : FieldElement.wrap64 (b * b) = b * b :=
      wrap64_eq_self (le_trans (by norm_num) (mul_nonneg hb hb))
        (prod_lt_i64 hbd hb hbp hb hbp)
    have hwr : FieldElement.wrap64 (r * b) = r * b :=
      wrap64_eq_self (le_trans (by norm_num) (mul_nonneg hr hb))
        (prod_lt_i64 hbd hr hrp hb hbp)
    unfold FieldElement.powLoop
    rw [if_pos he, hwb, hwr]
    by_cases hrec : 0 < e.tdiv 2
    · have hb2 : 0 ≤ (b * b).tmod p := Int.tmod_nonneg _ (mul_nonneg hb hb)
      have hb2p : (b * b).tmod p < p := Int.tmod_lt_of_pos _ hp
      have hr2 : 0 ≤ (if e.tmod 2 = 1 then (r * b).tmod p else r) := by
        split
        · exact Int.tmod_nonneg _ (mul_nonneg hr hb)
        · exact hr
      have hr2p : (if e.tmod 2 = 1 then (r * b).tmod p else r) < p := by
        split
        · exact Int.tmod_lt_of_pos _ hp
        · exact hrp
      have hle : (e.tdiv 2).toNat ≤ n := by
        rw [htd]
        omega
      rw [ih (e.tdiv 2) _ _ hle hrec hb2 hb2p hr2 hr2p]
      have hpow : ((b * b).tmod p) ^ (e.tdiv 2).toNat ≡
          (b * b) ^ (e.tdiv 2).toNat [ZMOD p] := (tmod_modEq _ p).pow _
      by_cases hodd : e.tmod 2 = 1
      · rw [if_pos hodd]
        have hk : e.toNat = 2 * (e.tdiv 2).toNat + 1 := by
          rw [htd]
          rw [htm] at hodd
          omega
        have hcong : (r * b).tmod p * ((b * b).tmod p) ^ (e.tdiv 2).toNat ≡
            r * b * (b * b) ^ (e.tdiv 2).toNat [ZMOD p] := (tmod_modEq _ p).mul hpow
        have heq : r * b * (b * b) ^ (e.tdiv 2).toNat = r * b ^ e.toNat := by
          rw [hk]
          ring
        exact (heq ▸ hcong).eq
      · rw [if_neg hodd]
        have hk : e.toNat = 2 * (e.tdiv 2).toNat := by
          rw [htd]
          rw [htm] at hodd
          omega
        have hcong : r * ((b * b).tmod p) ^ (e.tdiv 2).toNat ≡
            r * (b * b) ^ (e.tdiv 2).toNat [ZMOD p] := Int.ModEq.mul_left r hpow
        have heq : r * (b * b) ^ (e.tdiv 2).toNat = r * b ^ e.toNat := by
          rw [hk]
          ring
        exact (heq ▸ hcong).eq
    · have he1 : e = 1 := by omega
      subst he1
      have h2 : Int.tdiv (1 : Int) 2 = 0 := by decide
      have h1 : Int.tmod (1 : Int) 2 = 1 := by decide
      rw [h2, h1, if_pos rfl, powLoop_nonpos _ _ _ _ le_rfl]
      show (r * b).tmod p = (r * b ^ (1 : Nat)).emod p
      rw [pow_one]
      exact Int.tmod_eq_emod (mul_nonneg hr hb) (by omega)

/-- On a zero base and a positive exponent the loop returns 0: the final
iteration always folds the zero base into the accumulator. -/
theorem powLoop_zero_base (p : Int) :
    ∀ (n : Nat) (e r : Int), e.toNat ≤ n → 0 < e →
      FieldElement.powLoop p e 0 r = 0 := by
  intro n
  induction n with
  | zero =>
    intro e r hn he
    omega
  | succ n ih =>
    intro e r hn he
    have htd : e.tdiv 2 = e / 2 := Int.tdiv_eq_ediv (by omega) (by omega)
    unfold FieldElement.powLoop
    rw [if_pos he]
    simp only [mul_zero, wrap64_zero, Int.zero_tmod]
    by_cases hrec : 0 < e.tdiv 2
    · have hle : (e.tdiv 2).toNat ≤ n := by
        rw [htd]
        omega
      exact ih (e.tdiv 2) _ hle hrec
    · have he1 : e = 1 := by omega
      subst he1
      rw [powLoop_nonpos _ _ _ _ (by decide)]
      rw [if_pos (by decide)]

/-- pow carries the modulus over unchanged. -/
theorem pow_prime_eq (a : FieldElement) (e : Int) : (a.pow e).prime = a.prime := rfl

/-- Residue of pow at a positive exponent, for moduli small enough that
no loop product overflows i64. -/
theorem pow_num_pos (a : FieldElement) (e : Int) (hp2 : 2 ≤ a.prime)
    (hbd : a.prime ≤ 3037000500) (ha : 0 ≤ a.num) (hap : a.num < a.prime)
    (he : 0 < e) : (a.pow e).num = (a.num ^ e.toNat).emod a.prime := by
  show FieldElement.powLoop a.prime e a.num 1 = _
  rw [powLoop_eq (by omega) hbd e.toNat e a.num 1 le_rfl he ha hap (by omega) (by omega),
    one_mul]

/-- Residue of pow at a non-positive exponent: the loop never runs. -/
theorem pow_num_nonpos (a : FieldElement) (e : Int) (he : e ≤ 0) : (a.pow e).num = 1 :=
  powLoop_nonpos _ _ _ _ he

/-- On compatible operands, div succeeds with the wrapped product of the
dividend and the Fermat inverse, reduced. -/
theorem div_eq (a b : FieldElement) (hp : a.prime = b.prime) :
    a.div b = Except.ok
      ⟨(FieldElement.wrap64 (a.num * (b.pow (a.prime - 2)).num)).tmod a.prime,
        a.prime⟩ := by
  unfold FieldElement.div
  rw [if_neg (by omega)]

/-- C1: `FieldElement::new(num, prime)` succeeds and returns exactly the
given pair iff `0 ≤ num < prime`, and fails with `InvalidElement`
otherwise. -/
theorem new_range_spec (num prime : Int) :
    (FieldElement.new num prime = Except.ok ⟨num, prime⟩ ↔ 0 ≤ num ∧ num < prime) ∧
    (FieldElement.new num prime = Except.error FieldElementError.invalidElement ↔
      ¬(0 ≤ num ∧ num < prime)) ∧
    (∀ e : FieldElement, FieldElement.new num prime = Except.ok e → e = ⟨num, prime⟩) := by
  refine ⟨?_, ?_, ?_⟩ <;> unfold FieldElement.new <;> split <;> simp_all <;> omega

/-- Witness for C1 at concrete inputs: 2 is accepted modulo 19, 19 is
rejected modulo 19. -/
theorem new_range_spec_witness :
    FieldElement.new 2 19 = Except.ok ⟨2, 19⟩ ∧
    FieldElement.new 19 19 = Except.error FieldElementError.invalidElement :=
  ⟨(new_range_spec 2 19).1.mpr (by decide), (new_range_spec 19 19).2.1.mpr (by decide)⟩

/-- C2: every binary operation returns `DifferentFields` exactly when the
operand moduli differ, and succeeds whenever they agree. -/
theorem binop_prime_check (a b : FieldElement) (_ha : a.Valid) (_hb : b.Valid) :
    (a.prime ≠ b.prime →
      a.add b = Except.error FieldElementError.differentFields ∧
      a.sub b = Except.error FieldElementError.differentFields ∧
      a.mul b = Except.error FieldElementError.differentFields ∧
      a.div b = Except.error FieldElementError.differentFields) ∧
    (a.prime = b.prime →
      (∃ c, a.add b = Except.ok c) ∧ (∃ c, a.sub b = Except.ok c) ∧
      (∃ c, a.mul b = Except.ok c) ∧ (∃ c, a.div b = Except.ok c)) := by
  unfold FieldElement.add FieldElement.sub FieldElement.mul FieldElement.div
  constructor
  · intro h
    simp [h]
  · intro h
    simp [h]

/-- Witness for C2: elements of moduli 3 and 5 cannot be added. -/
theorem binop_prime_check_witness :
    FieldElement.add ⟨1, 3⟩ ⟨1, 5⟩ = Except.error FieldElementError.differentFields :=
  ((binop_prime_check ⟨1, 3⟩ ⟨1, 5⟩ (by decide) (by decide)).1 (by decide)).1

/-- Counterexample to C3 as stated: at the modulus 2 to the 63 minus 25,
the i64 sum of two copies of 2 to the 62 wraps and add returns the
residue -25; the renormalization sum in sub wraps and sub of 30 and 0
returns -20; the i64 product in mul wraps and mul returns -25. All
operands are validly constructed, all residues fall outside
`[0, prime)`. -/
theorem closure_overflow_counterexample :
    FieldElement.new (2 ^ 62) (2 ^ 63 - 25) = Except.ok ⟨2 ^ 62, 2 ^ 63 - 25⟩ ∧
    FieldElement.new 30 (2 ^ 63 - 25) = Except.ok ⟨30, 2 ^ 63 - 25⟩ ∧
    FieldElement.new 0 (2 ^ 63 - 25) = Except.ok ⟨0, 2 ^ 63 - 25⟩ ∧
    FieldElement.new 2 (2 ^ 63 - 25) = Except.ok ⟨2, 2 ^ 63 - 25⟩ ∧
    FieldElement.add ⟨2 ^ 62, 2 ^ 63 - 25⟩ ⟨2 ^ 62, 2 ^ 63 - 25⟩ =
      Except.ok ⟨-25, 2 ^ 63 - 25⟩ ∧
    FieldElement.sub ⟨30, 2 ^ 63 - 25⟩ ⟨0, 2 ^ 63 - 25⟩ =
      Except.ok ⟨-20, 2 ^ 63 - 25⟩ ∧
    FieldElement.mul ⟨2 ^ 62, 2 ^ 63 - 25⟩ ⟨2, 2 ^ 63 - 25⟩ =
      Except.ok ⟨-25, 2 ^ 63 - 25⟩ ∧
    ¬(0 : Int) ≤ -25 ∧ ¬(0 : Int) ≤ -20 :=
  ⟨rfl, rfl, rfl, rfl, rfl, rfl, rfl, by decide, by decide⟩

/-- C3 amended: on valid compatible operands whose intermediate i64
computations do not overflow (twice the modulus at most 2 to the 63, and
the raw product below 2 to the 63), add, sub and mul succeed and return
an element of the same modulus with a residue back in `[0, prime)`. -/
theorem closure_spec (a b : FieldElement) (ha : a.Valid) (hb : b.Valid)
    (hp : a.prime = b.prime) (h2p : 2 * a.prime ≤ 2 ^ 63)
    (hmulfit : a.num * b.num < 2 ^ 63) :
    (∃ c, a.add b = Except.ok c ∧ 0 ≤ c.num ∧ c.num < a.prime ∧ c.prime = a.prime) ∧
    (∃ c, a.sub b = Except.ok c ∧ 0 ≤ c.num ∧ c.num < a.prime ∧ c.prime = a.prime) ∧
    (∃ c, a.mul b = Except.ok c ∧ 0 ≤ c.num ∧ c.num < a.prime ∧ c.prime = a.prime) := by
  obtain ⟨ha0, ha1⟩ := ha
  obtain ⟨hb0, hb1⟩ := hb
  have hp0 : 0 < a.prime := by omega
  have ht : (0 : Int) < 2 ^ 63 := by positivity
  have hwadd : FieldElement.wrap64 (a.num + b.num) = a.num + b.num :=
    wrap64_eq_self (by omega) (by omega)
  have hwdiff : FieldElement.wrap64 (a.num - b.num) = a.num - b.num :=
    wrap64_eq_self (by omega) (by omega)
  have htb : -a.prime < (a.num - b.num).tmod a.prime := neg_lt_tmod _ hp0
  have htb2 : (a.num - b.num).tmod a.prime < a.prime := Int.tmod_lt_of_pos _ hp0
  have hwren : FieldElement.wrap64 ((a.num - b.num).tmod a.prime + a.prime) =
      (a.num - b.num).tmod a.prime + a.prime :=
    wrap64_eq_self (by omega) (by omega)
  have hwmul : FieldElement.wrap64 (a.num * b.num) = a.num * b.num :=
    wrap64_eq_self (le_trans (by omega) (mul_nonneg ha0 hb0)) hmulfit
  have hadd : a.add b =
      Except.ok ⟨(a.num + b.num).tmod a.prime, a.prime⟩ := by
    unfold FieldElement.add
    rw [if_neg (by omega), hwadd]
  have hsub : a.sub b =
      Except.ok ⟨((a.num - b.num).tmod a.prime + a.prime).tmod a.prime, a.prime⟩ := by
    unfold FieldElement.sub
    rw [if_neg (by omega), hwdiff, hwren]
  have hmul : a.mul b = Except.ok ⟨(a.num * b.num).tmod a.prime, a.prime⟩ := by
    unfold FieldElement.mul
    rw [if_neg (by omega), hwmul]
  refine ⟨⟨_, hadd, ?_, ?_, rfl⟩, ⟨_, hsub, ?_, ?_, rfl⟩, ⟨_, hmul, ?_, ?_, rfl⟩⟩
  · show 0 ≤ (a.num + b.num).tmod a.prime
    exact Int.tmod_nonneg _ (by omega)
  · show (a.num + b.num).tmod a.prime < a.prime
    exact Int.tmod_lt_of_pos _ hp0
  · show 0 ≤ ((a.num - b.num).tmod a.prime + a.prime).tmod a.prime
    rw [norm_tmod _ hp0]
    exact Int.emod_nonneg _ (by omega)
  · show ((a.num - b.num).tmod a.prime + a.prime).tmod a.prime < a.prime
    rw [norm_tmod _ hp0]
    exact Int.emod_lt_of_pos _ hp0
  · show 0 ≤ (a.num * b.num).tmod a.prime
    exact Int.tmod_nonneg _ (mul_nonneg ha0 hb0)
  · show (a.num * b.num).tmod a.prime < a.prime
    exact Int.tmod_lt_of_pos _ hp0

/-- Witness for the amended C3 at the elements 2 and 7 modulo 19. -/
theorem closure_spec_witness :
    ∃ c, FieldElement.add ⟨2, 19⟩ ⟨7, 19⟩ = Except.ok c ∧
      0 ≤ c.num ∧ c.num < 19 ∧ c.prime = 19 :=
  (closure_spec ⟨2, 19⟩ ⟨7, 19⟩ (by decide) (by decide) rfl (by decide) (by decide)).1

/-- Counterexample to C4 as stated: at the modulus 2 to the 63 minus 25
the renormalization sum `num + prime` wraps in i64, so sub of the valid
elements 30 and 0 returns -20, not the Euclidean remainder 30. -/
theorem sub_overflow_counterexample :
    FieldElement.new 30 (2 ^ 63 - 25) = Except.ok ⟨30, 2 ^ 63 - 25⟩ ∧
    FieldElement.new 0 (2 ^ 63 - 25) = Except.ok ⟨0, 2 ^ 63 - 25⟩ ∧
    FieldElement.sub ⟨30, 2 ^ 63 - 25⟩ ⟨0, 2 ^ 63 - 25⟩ =
      Except.ok ⟨-20, 2 ^ 63 - 25⟩ ∧
    ((30 : Int) - 0).emod (2 ^ 63 - 25) = 30 ∧ (-20 : Int) ≠ 30 :=
  ⟨rfl, rfl, rfl, by decide, by decide⟩

/-- C4 amended: on valid compatible operands with twice the modulus at
most 2 to the 63 (so the renormalization sum cannot overflow i64), sub
returns exactly the Euclidean remainder of the raw difference, landing
in `[0, prime)`. -/
theorem sub_mod_spec (a b : FieldElement) (ha : a.Valid) (hb : b.Valid)
    (hp : a.prime = b.prime) (h2p : 2 * a.prime ≤ 2 ^ 63) :
    a.sub b = Except.ok ⟨(a.num - b.num).emod a.prime, a.prime⟩ ∧
    0 ≤ (a.num - b.num).emod a.prime ∧ (a.num - b.num).emod a.prime < a.prime := by
  obtain ⟨ha0, ha1⟩ := ha
  obtain ⟨hb0, hb1⟩ := hb
  have hp0 : 0 < a.prime := by omega
  have ht : (0 : Int) < 2 ^ 63 := by positivity
  have hwdiff : FieldElement.wrap64 (a.num - b.num) = a.num - b.num :=
    wrap64_eq_self (by omega) (by omega)
  have htb : -a.prime < (a.num - b.num).tmod a.prime := neg_lt_tmod _ hp0
  have htb2 : (a.num - b.num).tmod a.prime < a.prime := Int.tmod_lt_of_pos _ hp0
  have hwren : FieldElement.wrap64 ((a.num - b.num).tmod a.prime + a.prime) =
      (a.num - b.num).tmod a.prime + a.prime :=
    wrap64_eq_self (by omega) (by omega)
  unfold FieldElement.sub
  rw [if_neg (by omega), hwdiff, hwren, norm_tmod _ hp0]
  exact ⟨rfl, Int.emod_nonneg _ (by omega), Int.emod_lt_of_pos _ hp0⟩

/-- Witness for the amended C4: 2 - 7 modulo 19 normalizes to 14. -/
theorem sub_mod_spec_witness :
    FieldElement.sub ⟨2, 19⟩ ⟨7, 19⟩ = Except.ok ⟨14, 19⟩ :=
  (sub_mod_spec ⟨2, 19⟩ ⟨7, 19⟩ (by decide) (by decide) rfl (by decide)).1

set_option maxRecDepth 8192 in
/-- Counterexample to C5 as stated: the modulus 2 to the 61 minus 1 is an
actual prime (Lucas-Lehmer), 3 is a valid non-zero residue, yet the i64
square of the base wraps during the loop and pow at `prime - 1` returns
the residue -1245086856433991818 instead of 1. -/
theorem fermat_overflow_counterexample :
    Nat.Prime ((2 ^ 61 - 1 : Int)).toNat ∧
    FieldElement.new 3 (2 ^ 61 - 1) = Except.ok ⟨3, 2 ^ 61 - 1⟩ ∧
    (3 : Int) ≠ 0 ∧
    (FieldElement.pow ⟨3, 2 ^ 61 - 1⟩ ((2 ^ 61 - 1) - 1)).num = -1245086856433991818 ∧
    FieldElement.pow ⟨3, 2 ^ 61 - 1⟩ ((2 ^ 61 - 1) - 1) ≠ ⟨1, 2 ^ 61 - 1⟩ := by
  have hnum : (FieldElement.pow ⟨3, 2 ^ 61 - 1⟩ ((2 ^ 61 - 1) - 1)).num =
      -1245086856433991818 := by
    show FieldElement.powLoop (2 ^ 61 - 1) ((2 ^ 61 - 1) - 1) 3 1 = _
    rw [powLoop_eq_fuel (2 ^ 61 - 1) 61 ((2 ^ 61 - 1) - 1) 3 1 (by norm_num)]
    decide
  have hprime : Nat.Prime ((2 ^ 61 - 1 : Int)).toNat := by
    have hm : ((2 ^ 61 - 1 : Int)).toNat = mersenne 61 := by
      decide
    rw [hm]
    exact lucas_lehmer_sufficiency 61 (by norm_num) (by norm_num)
  refine ⟨hprime, rfl, by norm_num, hnum, ?_⟩
  intro heq
  have h1 : (FieldElement.pow ⟨3, 2 ^ 61 - 1⟩ ((2 ^ 61 - 1) - 1)).num = 1 := by
    rw [heq]
  rw [hnum] at h1
  omega

/-- C5 amended: Fermat consistency holds for actual primes of at most
3037000500 (so no loop product overflows i64): raising a valid non-zero
residue to `prime - 1` gives the element 1. -/
theorem fermat_pow_spec (a : FieldElement) (hv : a.Valid)
    (hp : a.prime.toNat.Prime) (hbd : a.prime ≤ 3037000500) (hnz : a.num ≠ 0) :
    a.pow (a.prime - 1) = ⟨1, a.prime⟩ := by
  obtain ⟨h0, h1⟩ := hv
  have hp2 : 2 ≤ a.prime.toNat := hp.two_le
  have hpp : 0 < a.prime := by omega
  have he : 0 < a.prime - 1 := by omega
  haveI : Fact a.prime.toNat.Prime := ⟨hp⟩
  have hcast : ((a.num : ZMod a.prime.toNat)) ≠ 0 := by
    rw [Ne, ZMod.intCast_zmod_eq_zero_iff_dvd]
    intro hdvd
    have hco : (a.prime.toNat : Int) = a.prime := by omega
    rw [hco] at hdvd
    have := Int.le_of_dvd (by omega) hdvd
    omega
  have hfer : (a.num : ZMod a.prime.toNat) ^ (a.prime.toNat - 1) = 1 :=
    ZMod.pow_card_sub_one_eq_one hcast
  have hcasteq : ((a.num ^ (a.prime.toNat - 1) : Int) : ZMod a.prime.toNat) =
      ((1 : Int) : ZMod a.prime.toNat) := by
    push_cast
    rw [hfer]
  have hmod : a.num ^ (a.prime.toNat - 1) ≡ 1 [ZMOD (a.prime.toNat : Int)] :=
    (ZMod.intCast_eq_intCast_iff _ _ _).mp hcasteq
  have hco : (a.prime.toNat : Int) = a.prime := by omega
  rw [hco] at hmod
  show (⟨FieldElement.powLoop a.prime (a.prime - 1) a.num 1, a.prime⟩ : FieldElement) =
    ⟨1, a.prime⟩
  rw [FieldElement.mk.injEq]
  refine ⟨?_, rfl⟩
  rw [powLoop_eq hpp hbd (a.prime - 1).toNat _ _ _ le_rfl he h0 h1 (by omega) (by omega),
    one_mul]
  have hten : (a.prime - 1).toNat = a.prime.toNat - 1 := by omega
  rw [hten]
  have hone : (1 : Int).emod a.prime = 1 := Int.emod_eq_of_lt (by omega) (by omega)
  calc (a.num ^ (a.prime.toNat - 1)).emod a.prime
      = (1 : Int).emod a.prime := hmod
    _ = 1 := hone

/-- Witness for the amended C5: 3 to the power 6 modulo the prime 7 is 1. -/
theorem fermat_pow_spec_witness :
    FieldElement.pow ⟨3, 7⟩ (7 - 1) = ⟨1, 7⟩ :=
  fermat_pow_spec ⟨3, 7⟩ (by decide) (by decide) (by decide) (by decide)

/-- C6: dividing equals multiplying by the Fermat inverse, the exponent
being `prime - 2`; the two sides perform the identical wrapped i64
operations. -/
theorem div_as_inv_mul (a b : FieldElement) (_ha : a.Valid) (_hb : b.Valid)
    (hp : a.prime = b.prime) (_hnz : b.num ≠ 0) :
    a.div b = a.mul (b.pow (a.prime - 2)) := by
  unfold FieldElement.div FieldElement.mul
  rw [if_neg (by omega), if_neg (by rw [pow_prime_eq]; omega)]

/-- Witness for C6 at 2 and 7 modulo 19. -/
theorem div_as_inv_mul_witness :
    FieldElement.div ⟨2, 19⟩ ⟨7, 19⟩ =
      FieldElement.mul ⟨2, 19⟩ (FieldElement.pow ⟨7, 19⟩ (19 - 2)) :=
  div_as_inv_mul ⟨2, 19⟩ ⟨7, 19⟩ (by decide) (by decide) rfl (by decide)

/-- Counterexample to C8 as stated and to its first repair: the element 0
modulo 1 is validly constructed, yet pow at exponent 0 yields residue 1,
which is not below the modulus 1; and even over the modulus 2 to the 62
the valid residue 3037000500 squared overflows i64, so pow at exponent 2
returns a negative residue. -/
theorem pow_range_counterexample :
    (FieldElement.new 0 1 = Except.ok ⟨0, 1⟩ ∧
      FieldElement.pow ⟨0, 1⟩ 0 = ⟨1, 1⟩ ∧
      ¬(FieldElement.pow ⟨0, 1⟩ 0).num < (1 : Int)) ∧
    (FieldElement.new 3037000500 (2 ^ 62) = Except.ok ⟨3037000500, 2 ^ 62⟩ ∧
      (FieldElement.pow ⟨3037000500, 2 ^ 62⟩ 2).num = -4611686018281913712 ∧
      ¬0 ≤ (FieldElement.pow ⟨3037000500, 2 ^ 62⟩ 2).num) := by
  have h1 : (FieldElement.pow ⟨0, 1⟩ 0).num = 1 := pow_num_nonpos _ 0 le_rfl
  have h2 : (FieldElement.pow ⟨3037000500, 2 ^ 62⟩ 2).num = -4611686018281913712 := by
    show FieldElement.powLoop (2 ^ 62) 2 3037000500 1 = _
    rw [powLoop_eq_fuel (2 ^ 62) 2 2 3037000500 1 (by norm_num)]
    decide
  refine ⟨⟨rfl, ?_, by rw [h1]; omega⟩, rfl, h2, by rw [h2]; omega⟩
  show (⟨(FieldElement.pow ⟨0, 1⟩ 0).num, 1⟩ : FieldElement) = ⟨1, 1⟩
  rw [h1]

/-- C8 amended: for a valid element over a modulus between 2 and
3037000500 (so the spec contract holds and no loop product overflows
i64), pow always yields the same modulus and a residue in range, and a
negative exponent skips the loop, yielding residue 1. -/
theorem pow_total_spec (a : FieldElement) (hv : a.Valid) (hp2 : 2 ≤ a.prime)
    (hbd : a.prime ≤ 3037000500) (e : Int) :
    (a.pow e).prime = a.prime ∧ 0 ≤ (a.pow e).num ∧ (a.pow e).num < a.prime ∧
    (e < 0 → (a.pow e).num = 1) := by
  obtain ⟨h0, h1⟩ := hv
  have hpp : 0 < a.prime := by omega
  have hbounds : 0 ≤ (a.pow e).num ∧ (a.pow e).num < a.prime := by
    rcases le_or_lt e 0 with he | he
    · rw [pow_num_nonpos a e he]
      omega
    · rw [pow_num_pos a e hp2 hbd h0 h1 he]
      exact ⟨Int.emod_nonneg _ (by omega), Int.emod_lt_of_pos _ hpp⟩
  exact ⟨rfl, hbounds.1, hbounds.2, fun hneg => pow_num_nonpos a e (by omega)⟩

/-- Witness for the amended C8 at the element 2 modulo 19 and the negative
exponent -3. -/
theorem pow_total_spec_witness :
    (FieldElement.pow ⟨2, 19⟩ (-3)).num = 1 :=
  (pow_total_spec ⟨2, 19⟩ (by decide) (by decide) (by decide) (-3)).2.2.2 (by decide)

/-- Counterexample to C9 as stated: over the prime 2, dividing the valid
element 1 by the zero element returns residue 1, not 0, because the
Fermat exponent is 0. -/
theorem div_by_zero_counterexample :
    FieldElement.new 1 2 = Except.ok ⟨1, 2⟩ ∧
    FieldElement.div ⟨1, 2⟩ ⟨0, 2⟩ = Except.ok ⟨1, 2⟩ ∧ (1 : Int) ≠ 0 := by
  refine ⟨rfl, ?_, by decide⟩
  rw [div_eq ⟨1, 2⟩ ⟨0, 2⟩ rfl]
  have hz : (FieldElement.pow ⟨0, 2⟩ ((2 : Int) - 2)).num = 1 :=
    pow_num_nonpos _ _ (by omega)
  show (Except.ok ⟨(FieldElement.wrap64
      ((1 : Int) * (FieldElement.pow ⟨0, 2⟩ ((2 : Int) - 2)).num)).tmod 2, 2⟩ :
    FieldResult) = Except.ok ⟨1, 2⟩
  rw [hz]
  rfl

/-- C9 amended: for a modulus of at least 3, dividing a valid element by
the zero element silently succeeds with residue 0: the Fermat exponent is
then positive and 0 to a positive power is 0. -/
theorem div_by_zero_spec (a : FieldElement) (hv : a.Valid) (hp3 : 3 ≤ a.prime) :
    a.div ⟨0, a.prime⟩ = Except.ok ⟨0, a.prime⟩ := by
  obtain ⟨h0, h1⟩ := hv
  rw [div_eq a ⟨0, a.prime⟩ rfl]
  have hz : (FieldElement.pow ⟨0, a.prime⟩ (a.prime - 2)).num = 0 := by
    show FieldElement.powLoop a.prime (a.prime - 2) 0 1 = 0
    exact powLoop_zero_base a.prime (a.prime - 2).toNat _ _ le_rfl (by omega)
  rw [hz, mul_zero, wrap64_zero, Int.zero_tmod]

/-- Witness for the amended C9 at the element 2 modulo 19. -/
theorem div_by_zero_spec_witness :
    FieldElement.div ⟨2, 19⟩ ⟨0, 19⟩ = Except.ok ⟨0, 19⟩ :=
  div_by_zero_spec ⟨2, 19⟩ (by decide) (by decide)

/-- C10: over the prime 2 the Fermat exponent is 0, pow returns 1 as the
inverse of zero, and dividing by the zero element returns the dividend
unchanged. -/
theorem div_by_zero_prime_two (a : FieldElement) (hv : a.Valid) (hp : a.prime = 2) :
    a.div ⟨0, 2⟩ = Except.ok ⟨a.num, 2⟩ := by
  obtain ⟨h0, h1⟩ := hv
  rw [div_eq a ⟨0, 2⟩ hp]
  have hz : (FieldElement.pow ⟨0, 2⟩ (a.prime - 2)).num = 1 :=
    pow_num_nonpos _ _ (by omega)
  have ht : (2 : Int) ≤ 2 ^ 63 := by norm_num
  have hw : FieldElement.wrap64 a.num = a.num := wrap64_eq_self (by omega) (by omega)
  rw [hz, mul_one, hw, Int.tmod_eq_of_lt h0 h1, hp]

/-- Witness for C10 at the element 1 modulo 2: the quotient is 1, the
dividend itself. -/
theorem div_by_zero_prime_two_witness :
    FieldElement.div ⟨1, 2⟩ ⟨0, 2⟩ = Except.ok ⟨1, 2⟩ :=
  div_by_zero_prime_two ⟨1, 2⟩ (by decide) rfl

/-- Counterexample to C7 as stated: both operands hold the i64-representable
residue 2 to the 62 over the modulus one more than that, yet the wrapped
intermediate product makes the multiplication return 0 where the exact
value of the product modulo the prime is 1. -/
theorem mul_overflow_counterexample :
    FieldElement.new (2 ^ 62) (2 ^ 62 + 1) = Except.ok ⟨2 ^ 62, 2 ^ 62 + 1⟩ ∧
    ((2 ^ 62 : Int) * 2 ^ 62).emod (2 ^ 62 + 1) = 1 ∧
    FieldElement.mulWrap ⟨2 ^ 62, 2 ^ 62 + 1⟩ ⟨2 ^ 62, 2 ^ 62 + 1⟩ =
      Except.ok ⟨0, 2 ^ 62 + 1⟩ ∧
    FieldElement.mulWrap ⟨2 ^ 62, 2 ^ 62 + 1⟩ ⟨2 ^ 62, 2 ^ 62 + 1⟩ ≠
      Except.ok ⟨((2 ^ 62 : Int) * 2 ^ 62).emod (2 ^ 62 + 1), 2 ^ 62 + 1⟩ := by
  have hex : ((2 ^ 62 : Int) * 2 ^ 62).emod (2 ^ 62 + 1) = 1 := by decide
  have hmw : FieldElement.mulWrap ⟨2 ^ 62, 2 ^ 62 + 1⟩ ⟨2 ^ 62, 2 ^ 62 + 1⟩ =
      Except.ok ⟨0, 2 ^ 62 + 1⟩ := by
    unfold FieldElement.mulWrap FieldElement.wrap64
    rw [if_neg (by omega)]
    norm_num
  refine ⟨by norm_num [FieldElement.new], hex, hmw, ?_⟩
  rw [hmw, hex]
  simp

/-- C7 amended: the intermediate product is not guarded against i64
overflow; multiplication returns the exact value of the product modulo
the prime exactly on operands whose product fits below 2 to the 63. -/
theorem mul_exact_of_no_overflow (a b : FieldElement) (ha : a.Valid) (hb : b.Valid)
    (hp : a.prime = b.prime) (hfit : a.num * b.num < 2 ^ 63) :
    a.mulWrap b = Except.ok ⟨(a.num * b.num).emod a.prime, a.prime⟩ ∧
    a.mulWrap b = a.mul b := by
  obtain ⟨ha0, ha1⟩ := ha
  obtain ⟨hb0, hb1⟩ := hb
  have hp0 : 0 < a.prime := by omega
  have hnn : 0 ≤ a.num * b.num := mul_nonneg ha0 hb0
  have hwrap : FieldElement.wrap64 (a.num * b.num) = a.num * b.num :=
    wrap64_eq_self (le_trans (by norm_num) hnn) hfit
  constructor
  · unfold FieldElement.mulWrap
    rw [if_neg (by omega), hwrap, Int.tmod_eq_emod hnn (by omega)]
    rfl
  · unfold FieldElement.mulWrap FieldElement.mul
    rfl

/-- Witness for the amended C7 at 2 and 7 modulo 19: the product 14 fits
in i64 and the wrapped multiplication returns it exactly. -/
theorem mul_exact_of_no_overflow_witness :
    FieldElement.mulWrap ⟨2, 19⟩ ⟨7, 19⟩ = Except.ok ⟨14, 19⟩ :=
  (mul_exact_of_no_overflow ⟨2, 19⟩ ⟨7, 19⟩ (by decide) (by decide) rfl (by decide)).1
